import Mathlib

/-!
Verification of the ChineseDisplay client pipeline.

Shallow embedding of the glyph fetch / cache / compose / render pipeline of
`oled_display.py` and `demo1/oled_display_size.py`, and of the font service's
`text_to_bitmap` (`font_server_size.py`).  Stateful code (the glyph cache) is
embedded by explicit state passing; the network is an explicit oracle
parameter; fallible code returns `Option`.
-/

/-- A glyph / bitmap data record as returned by `_fetch_single_char_bitmap`
and consumed by `_fetch_font_bitmap`: the `bitmap`, `width`, `height` and
`success` entries of the JSON dict, with all fields present.  Pixel values
`0`/`1` are embedded as `Bool`. -/
structure CharData where
  bitmap : List (List Bool)
  width : Nat
  height : Nat
  success : Bool
deriving DecidableEq

/-- Read pixel `(row y, column x)` of a grid, `false` when out of range
(mirrors `char_bitmap[y][x]` at indices that the loops keep in range). -/
def getPix (grid : List (List Bool)) (y x : Nat) : Bool :=
  (grid.getD y []).getD x false

/-- `grid[r][c] = 1` — write `true` at row `r`, column `c`; out-of-range
writes leave the grid unchanged (the blit loops only produce in-range
writes, see `blit_indices_in_bounds`). -/
def setPix (grid : List (List Bool)) (r c : Nat) : List (List Bool) :=
  match grid.get? r with
  | some row => grid.set r (row.set c true)
  | none => grid

/-- Phase 1 of `_fetch_font_bitmap` (lines 152-166): walk the characters of
`text` in order, calling the per-character fetch; collect the glyph dicts,
aborting with `None` at the first character whose fetch fails
(`if char_data and char_data['success']`).  The second component is the
list of characters on which the fetch was actually invoked (the call
trace), used to state the fail-fast property. -/
def fetchCharsT (fetch : Char → Option CharData) : List Char → Option (List CharData) × List Char
  | [] => (some [], [])
  | c :: cs =>
    match fetch c with
    | none => (none, [c])
    | some d =>
      if d.success then
        let r := fetchCharsT fetch cs
        (r.1.map (fun gs => d :: gs), c :: r.2)
      else (none, [c])

/-- `max_height` accumulated by the loop at lines 157-158: starts at 0 and
is bumped whenever a glyph is taller. -/
def maxHeight (gs : List CharData) : Nat :=
  gs.foldl (fun m g => max m g.height) 0

/-- `total_width` accumulated at line 156: the sum of the glyph widths. -/
def totalWidth (gs : List CharData) : Nat :=
  (gs.map (fun g => g.width)).sum

/-- The value of `current_x` when glyph `i` is blitted: the sum of the
widths of the glyphs before it. -/
def cursorAt (gs : List CharData) (i : Nat) : Nat :=
  ((gs.take i).map (fun g => g.width)).sum

/-- The nested blit loops at lines 181-184: for `y < char_height`,
`x < char_width`, if the glyph pixel is set, write `1` into the composite
at row `(max_height - char_height) + y`, column `current_x + x`. -/
def blitGlyph (g : CharData) (maxH cursor : Nat) (grid : List (List Bool)) : List (List Bool) :=
  (List.range g.height).foldl
    (fun gr y =>
      (List.range g.width).foldl
        (fun gr2 x =>
          if getPix g.bitmap y x then setPix gr2 (maxH - g.height + y) (cursor + x) else gr2)
        gr)
    grid

/-- The outer loop at lines 171-185: blit each glyph at the running cursor,
then advance the cursor by the glyph's width. -/
def blitList (gs : List CharData) (maxH : Nat) (cursor : Nat) (grid : List (List Bool)) : List (List Bool) :=
  match gs with
  | [] => grid
  | g :: rest => blitList rest maxH (cursor + g.width) (blitGlyph g maxH cursor grid)

/-- `_fetch_font_bitmap` (lines 136-191), with `_fetch_single_char_bitmap`
abstracted as the oracle `fetch`: fail-fast collection of the per-character
glyph dicts, `None` when no glyph was collected (empty text), otherwise the
composite assembled by allocating a `max_height × total_width` grid of `0`
(line 169) and blitting every glyph bottom-aligned. -/
def fetch_font_bitmap (fetch : Char → Option CharData) (text : List Char) : Option CharData :=
  match (fetchCharsT fetch text).1 with
  | none => none
  | some gs =>
    if gs.isEmpty then none
    else
      let mh := maxHeight gs
      let tw := totalWidth gs
      let grid0 := List.replicate mh (List.replicate tw false)
      some { bitmap := blitList gs mh 0 grid0, width := tw, height := mh, success := true }

/-- The running maximum of the height fold never decreases below its seed. -/
theorem foldl_max_le_seed (l : List CharData) (m : Nat) :
    m ≤ l.foldl (fun m g => max m g.height) m := by
  induction l generalizing m with
  | nil => exact le_refl _
  | cons b l ih => exact le_trans (le_max_left _ _) (ih _)

/-- Every glyph of the list is no taller than the accumulated `max_height`. -/
theorem height_le_maxHeight {g : CharData} {gs : List CharData} (h : g ∈ gs) :
    g.height ≤ maxHeight gs := by
  have key : ∀ (l : List CharData) (m : Nat), g ∈ l →
      g.height ≤ l.foldl (fun m g => max m g.height) m := by
    intro l
    induction l with
    | nil => intro m hm; cases hm
    | cons a l ih =>
      intro m hm
      rcases List.mem_cons.mp hm with rfl | hm
      · exact le_trans (le_max_right m g.height) (foldl_max_le_seed l _)
      · exact ih _ hm
  exact key gs 0 h

/-- The cursor position of glyph `i` plus its width is at most the total
width. -/
theorem cursor_add_width_le {gs : List CharData} {i : Nat} {g : CharData}
    (h : gs.get? i = some g) : cursorAt gs i + g.width ≤ totalWidth gs := by
  induction gs generalizing i with
  | nil => simp [List.get?] at h
  | cons a l ih =>
    cases i with
    | zero =>
      simp only [List.get?] at h
      cases h
      simp [cursorAt, totalWidth]
    | succ n =>
      simp only [List.get?] at h
      have := ih h
      simp only [cursorAt, totalWidth, List.take, List.map_cons, List.sum_cons]
      simp only [cursorAt, totalWidth] at this
      omega

/-- An invariant preserved by every step of a left fold holds of the
result. -/
theorem foldl_inv {α β : Type} (f : β → α → β) (P : β → Prop) :
    ∀ (l : List α) (b : β), P b → (∀ b a, P b → P (f b a)) → P (l.foldl f b) := by
  intro l
  induction l with
  | nil => intro b hb _; exact hb
  | cons a l ih => intro b hb hstep; exact ih _ (hstep b a hb) hstep

/-- The grid is an `mh × tw` matrix: `mh` rows, each of length `tw`. -/
def gridShape (grid : List (List Bool)) (mh tw : Nat) : Prop :=
  grid.length = mh ∧ ∀ row ∈ grid, row.length = tw

/-- `setPix` preserves the matrix shape (`List.set` keeps lengths). -/
theorem setPix_shape {grid : List (List Bool)} {mh tw : Nat} (h : gridShape grid mh tw)
    (r c : Nat) : gridShape (setPix grid r c) mh tw := by
  obtain ⟨hlen, hrow⟩ := h
  unfold setPix
  cases hg : grid.get? r with
  | none => exact ⟨hlen, hrow⟩
  | some row =>
    refine ⟨by simp [hlen], ?_⟩
    intro row2 hmem
    rcases List.mem_or_eq_of_mem_set hmem with hmem2 | rfl
    · exact hrow _ hmem2
    · rw [List.length_set]
      exact hrow _ (List.get?_mem hg)

/-- `blitGlyph` preserves the matrix shape. -/
theorem blitGlyph_shape {grid : List (List Bool)} {mh tw : Nat} (h : gridShape grid mh tw)
    (g : CharData) (maxH cursor : Nat) : gridShape (blitGlyph g maxH cursor grid) mh tw := by
  unfold blitGlyph
  refine foldl_inv _ (fun gr => gridShape gr mh tw) _ _ h ?_
  intro b y hb
  refine foldl_inv _ (fun gr => gridShape gr mh tw) _ _ hb ?_
  intro b2 x hb2
  split
  · exact setPix_shape hb2 _ _
  · exact hb2

/-- `blitList` preserves the matrix shape. -/
theorem blitList_shape {grid : List (List Bool)} {mh tw : Nat} (h : gridShape grid mh tw)
    (gs : List CharData) (maxH cursor : Nat) : gridShape (blitList gs maxH cursor grid) mh tw := by
  induction gs generalizing grid cursor with
  | nil => exact h
  | cons g rest ih => exact ih (blitGlyph_shape h g maxH cursor) _

/-- The freshly allocated buffer of line 169 is a `mh × tw` matrix. -/
theorem replicate_shape (mh tw : Nat) :
    gridShape (List.replicate mh (List.replicate tw false)) mh tw := by
  constructor
  · simp
  · intro row hmem
    rw [List.eq_of_mem_replicate hmem]
    simp

/-- A successful fail-fast collection yields one glyph per character. -/
theorem fetchCharsT_length {fetch : Char → Option CharData} :
    ∀ {text : List Char} {gs : List CharData},
      (fetchCharsT fetch text).1 = some gs → gs.length = text.length := by
  intro text
  induction text with
  | nil => intro gs h; simp [fetchCharsT] at h; simp [← h]
  | cons c cs ih =>
    intro gs h
    simp only [fetchCharsT] at h
    cases hf : fetch c with
    | none => rw [hf] at h; simp at h
    | some d =>
      rw [hf] at h
      by_cases hs : d.success
      · simp only [hs, if_true] at h
        cases hr : (fetchCharsT fetch cs).1 with
        | none => rw [hr] at h; simp at h
        | some gs2 =>
          rw [hr] at h
          simp at h
          rw [← h]
          simp [ih hr]
      · simp [hs] at h

/-- C1: for every text whose per-character glyph fetches all succeed (and
which yields at least one character), the composite bitmap produced by
`_fetch_font_bitmap` has height equal to the maximum of the constituent
glyph heights and width equal to the sum of the constituent glyph widths;
its pixel grid has exactly those dimensions. -/
theorem compose_dims (fetch : Char → Option CharData) (text : List Char)
    (gs : List CharData) (hgs : (fetchCharsT fetch text).1 = some gs)
    (hne : text ≠ []) :
    ∃ comp, fetch_font_bitmap fetch text = some comp ∧
      comp.height = maxHeight gs ∧ comp.width = totalWidth gs ∧
      comp.bitmap.length = maxHeight gs ∧
      ∀ row ∈ comp.bitmap, row.length = totalWidth gs := by
  have hlen := fetchCharsT_length hgs
  have hgsne : gs.isEmpty = false := by
    cases gs with
    | nil =>
      cases text with
      | nil => exact absurd rfl hne
      | cons c cs => simp at hlen
    | cons g r => rfl
  refine ⟨{ bitmap := blitList gs (maxHeight gs) 0
              (List.replicate (maxHeight gs) (List.replicate (totalWidth gs) false)),
            width := totalWidth gs, height := maxHeight gs, success := true },
          ?_, rfl, rfl, ?_, ?_⟩
  · unfold fetch_font_bitmap
    rw [hgs]
    simp [hgsne]
  · exact (blitList_shape (replicate_shape _ _) gs (maxHeight gs) 0).1
  · exact (blitList_shape (replicate_shape _ _) gs (maxHeight gs) 0).2

/-- Witness oracle: every character fetches to the same 1×1 glyph. -/
def fetchOne : Char → Option CharData :=
  fun _ => some { bitmap := [[true]], width := 1, height := 1, success := true }

/-- Witness for `compose_dims` at the concrete text `"a"`. -/
theorem compose_dims_witness :
    ∃ comp, fetch_font_bitmap fetchOne ['a'] = some comp ∧
      comp.height = maxHeight [{ bitmap := [[true]], width := 1, height := 1, success := true }] ∧
      comp.width = totalWidth [{ bitmap := [[true]], width := 1, height := 1, success := true }] ∧
      comp.bitmap.length = maxHeight [{ bitmap := [[true]], width := 1, height := 1, success := true }] ∧
      ∀ row ∈ comp.bitmap,
        row.length = totalWidth [{ bitmap := [[true]], width := 1, height := 1, success := true }] :=
  compose_dims fetchOne ['a'] _ (by decide) (by decide)

/-- C10: every pixel write of the blit loops is in bounds — for glyph `i`
of the collected list, every target row `(maxHeight - height) + y` with
`y < height` is below `maxHeight`, and every target column
`cursorAt + x` with `x < width` is below `totalWidth`. -/
theorem blit_indices_in_bounds (gs : List CharData) (i : Nat) (g : CharData)
    (hg : gs.get? i = some g) (y x : Nat) (hy : y < g.height) (hx : x < g.width) :
    (maxHeight gs - g.height) + y < maxHeight gs ∧ cursorAt gs i + x < totalWidth gs := by
  have hmem : g ∈ gs := List.get?_mem hg
  have h1 : g.height ≤ maxHeight gs := height_le_maxHeight hmem
  have h2 : cursorAt gs i + g.width ≤ totalWidth gs := cursor_add_width_le hg
  omega

/-- Witness for `blit_indices_in_bounds` on a concrete two-glyph line. -/
theorem blit_indices_in_bounds_witness :
    (maxHeight [⟨[[true]], 1, 1, true⟩, ⟨[[true, true]], 2, 1, true⟩] - 1) + 0 <
        maxHeight [⟨[[true]], 1, 1, true⟩, ⟨[[true, true]], 2, 1, true⟩] ∧
      cursorAt [⟨[[true]], 1, 1, true⟩, ⟨[[true, true]], 2, 1, true⟩] 1 + 1 <
        totalWidth [⟨[[true]], 1, 1, true⟩, ⟨[[true, true]], 2, 1, true⟩] :=
  blit_indices_in_bounds _ 1 ⟨[[true, true]], 2, 1, true⟩ (by decide) 0 1 (by decide) (by decide)

/-- Writing a pixel at an in-bounds position makes `getPix` there `true`. -/
theorem getPix_setPix_self {grid : List (List Bool)} {r c : Nat}
    (hr : r < grid.length) (hc : c < (grid.getD r []).length) :
    getPix (setPix grid r c) r c = true := by
  have hsome : grid[r]? = some grid[r] := List.getElem?_eq_getElem hr
  have hg : grid.get? r = some grid[r] := by
    rw [List.get?_eq_getElem? grid r]; exact hsome
  have hgd : grid.getD r [] = grid[r] := by
    rw [List.getD_eq_getElem?_getD, hsome]; rfl
  have hc2 : c < grid[r].length := by rw [hgd] at hc; exact hc
  simp only [setPix, hg]
  simp only [getPix, List.getD_eq_getElem?_getD]
  rw [List.getElem?_set_eq_of_lt _ (by simpa using hr)]
  simp only [Option.getD_some]
  rw [List.getElem?_set_eq_of_lt _ (by simpa using hc2)]
  rfl

/-- `setPix` only ever sets pixels: a pixel that reads `true` before still
reads `true` after (the OR-composite never clears bits). -/
theorem getPix_setPix_mono {grid : List (List Bool)} {y x : Nat} (r c : Nat)
    (h : getPix grid y x = true) : getPix (setPix grid r c) y x = true := by
  cases hg : grid.get? r with
  | none => simp only [setPix, hg]; exact h
  | some row =>
    have hr : grid[r]? = some row := by rw [← List.get?_eq_getElem? grid r]; exact hg
    simp only [setPix, hg]
    simp only [getPix, List.getD_eq_getElem?_getD] at h ⊢
    by_cases hyr : r = y
    · subst hyr
      rw [List.getElem?_set_eq_of_lt _ (by exact (List.getElem?_eq_some.mp hr).1)]
      simp only [Option.getD_some]
      rw [hr] at h
      simp only [Option.getD_some] at h
      by_cases hcx : c = x
      · subst hcx
        cases hx : row[c]? with
        | none => rw [hx] at h; simp at h
        | some b =>
          rcases List.getElem?_eq_some.mp hx with ⟨hlt, hb⟩
          rw [List.getElem?_set_eq_of_lt _ (by simpa using hlt)]
          rfl
      · rw [List.getElem?_set_ne hcx]
        exact h
    · rw [List.getElem?_set_ne hyr]
      exact h

/-- Reachability through a fold: if some element `a0` of the list
establishes `R` (under invariant `Q`), and every step preserves both `Q`
and `R`, then the fold's result satisfies `R`. -/
theorem foldl_reach_inv {α β : Type} (f : β → α → β) (Q R : β → Prop) :
    ∀ (l : List α) (a0 : α), a0 ∈ l → (∀ b a, Q b → Q (f b a)) →
      (∀ b, Q b → R (f b a0)) → (∀ b a, R b → R (f b a)) →
      ∀ (b : β), Q b → R (l.foldl f b) := by
  intro l
  induction l with
  | nil => intro a0 ha; cases ha
  | cons a l ih =>
    intro a0 ha hQ hset hkeep b hb
    rcases List.mem_cons.mp ha with rfl | hmem
    · exact foldl_inv f R l (f b a0) (hset b hb) hkeep
    · exact ih a0 hmem hQ hset hkeep (f b a) (hQ b a hb)

/-- Any pixel already set survives a whole-glyph blit. -/
theorem blitGlyph_mono {grid : List (List Bool)} {y x : Nat}
    (g : CharData) (maxH cursor : Nat) (h : getPix grid y x = true) :
    getPix (blitGlyph g maxH cursor grid) y x = true := by
  unfold blitGlyph
  refine foldl_inv _ (fun gr => getPix gr y x = true) _ _ h ?_
  intro b yy hb
  refine foldl_inv _ (fun gr => getPix gr y x = true) _ _ hb ?_
  intro b2 xx hb2
  split
  · exact getPix_setPix_mono _ _ hb2
  · exact hb2

/-- Any pixel already set survives blitting a whole list of glyphs. -/
theorem blitList_mono {grid : List (List Bool)} {y x : Nat}
    (gs : List CharData) (maxH cursor : Nat) (h : getPix grid y x = true) :
    getPix (blitList gs maxH cursor grid) y x = true := by
  induction gs generalizing grid cursor with
  | nil => exact h
  | cons g rest ih => exact ih _ (blitGlyph_mono g maxH cursor h)

/-- A set glyph pixel is written by `blitGlyph` at the bottom-aligned,
cursor-shifted position (the grid keeping the `mh × tw` shape). -/
theorem blitGlyph_sets {grid : List (List Bool)} {mh tw : Nat}
    (hshape : gridShape grid mh tw) (g : CharData) (maxH cursor y x : Nat)
    (hy : y < g.height) (hx : x < g.width) (hpix : getPix g.bitmap y x = true)
    (hrow : maxH - g.height + y < mh) (hcol : cursor + x < tw) :
    getPix (blitGlyph g maxH cursor grid) (maxH - g.height + y) (cursor + x) = true := by
  unfold blitGlyph
  refine foldl_reach_inv _ (fun gr => gridShape gr mh tw)
      (fun gr => getPix gr (maxH - g.height + y) (cursor + x) = true)
      (List.range g.height) y (List.mem_range.mpr hy) ?_ ?_ ?_ grid hshape
  · intro b yy hb
    refine foldl_inv _ (fun gr => gridShape gr mh tw) _ _ hb ?_
    intro b2 xx hb2
    split
    · exact setPix_shape hb2 _ _
    · exact hb2
  · intro b hb
    refine foldl_reach_inv _ (fun gr => gridShape gr mh tw)
        (fun gr => getPix gr (maxH - g.height + y) (cursor + x) = true)
        (List.range g.width) x (List.mem_range.mpr hx) ?_ ?_ ?_ b hb
    · intro b2 xx hb2
      split
      · exact setPix_shape hb2 _ _
      · exact hb2
    · intro b2 hb2
      rw [hpix]
      simp only [if_true]
      refine getPix_setPix_self ?_ ?_
      · rw [hb2.1]; exact hrow
      · have hlt : maxH - g.height + y < b2.length := by rw [hb2.1]; exact hrow
        have : b2.getD (maxH - g.height + y) [] = b2[maxH - g.height + y] := by
          rw [List.getD_eq_getElem?_getD, List.getElem?_eq_getElem hlt]; rfl
        rw [this, hb2.2 _ (List.getElem_mem hlt)]
        exact hcol
    · intro b2 xx hb2
      split
      · exact getPix_setPix_mono _ _ hb2
      · exact hb2
  · intro b yy hb
    refine foldl_inv _ (fun gr => getPix gr (maxH - g.height + y) (cursor + x) = true) _ _ hb ?_
    intro b2 xx hb2
    split
    · exact getPix_setPix_mono _ _ hb2
    · exact hb2

/-- Cursor arithmetic: skipping the head glyph shifts the cursor by its
width. -/
theorem cursorAt_cons_succ (a : CharData) (rest : List CharData) (n : Nat) :
    cursorAt (a :: rest) (n + 1) = a.width + cursorAt rest n := by
  simp [cursorAt]

/-- A set pixel of glyph `i` is set in the grid after the whole blit loop,
at the bottom-aligned row and the cursor-shifted column. -/
theorem blitList_sets {mh tw : Nat} :
    ∀ (gs : List CharData) (i : Nat) (g : CharData) (cursor : Nat)
      (grid : List (List Bool)) (y x : Nat),
      gridShape grid mh tw → gs.get? i = some g →
      y < g.height → x < g.width → getPix g.bitmap y x = true →
      maxHeight gs - g.height + y < mh → cursor + cursorAt gs i + x < tw →
      getPix (blitList gs (maxHeight gs) cursor grid)
        (maxHeight gs - g.height + y) (cursor + cursorAt gs i + x) = true := by
  have key : ∀ (gs : List CharData) (maxH : Nat) (i : Nat) (g : CharData) (cursor : Nat)
      (grid : List (List Bool)) (y x : Nat),
      gridShape grid mh tw → gs.get? i = some g →
      y < g.height → x < g.width → getPix g.bitmap y x = true →
      maxH - g.height + y < mh → cursor + cursorAt gs i + x < tw →
      getPix (blitList gs maxH cursor grid)
        (maxH - g.height + y) (cursor + cursorAt gs i + x) = true := by
    intro gs
    induction gs with
    | nil => intro maxH i g cursor grid y x _ h; simp [List.get?] at h
    | cons a rest ih =>
      intro maxH i g cursor grid y x hshape hget hy hx hpix hrow hcol
      cases i with
      | zero =>
        simp only [List.get?] at hget
        cases hget
        have hcz : cursorAt (a :: rest) 0 = 0 := by simp [cursorAt]
        rw [hcz] at hcol ⊢
        have hset := blitGlyph_sets hshape a maxH cursor y x hy hx hpix hrow
          (by omega)
        show getPix (blitList rest maxH (cursor + a.width)
            (blitGlyph a maxH cursor grid)) (maxH - a.height + y) (cursor + 0 + x) = true
        have hca : cursor + 0 + x = cursor + x := by omega
        rw [hca]
        exact blitList_mono rest maxH _ hset
      | succ n =>
        simp only [List.get?] at hget
        rw [cursorAt_cons_succ] at hcol ⊢
        show getPix (blitList rest maxH (cursor + a.width)
            (blitGlyph a maxH cursor grid)) (maxH - g.height + y)
            (cursor + (a.width + cursorAt rest n) + x) = true
        have harith : cursor + (a.width + cursorAt rest n) + x
            = (cursor + a.width) + cursorAt rest n + x := by omega
        rw [harith] at hcol ⊢
        exact ih maxH n g (cursor + a.width) _ y x
          (blitGlyph_shape hshape a maxH cursor) hget hy hx hpix hrow hcol
  intro gs i g cursor grid y x h1 h2 h3 h4 h5 h6 h7
  exact key gs (maxHeight gs) i g cursor grid y x h1 h2 h3 h4 h5 h6 h7

/-- C2: every constituent glyph is blitted bottom-aligned — a set pixel
`(x, y)` of glyph `i` (of height `h`) lands in the composite at row
`(maxHeight - h) + y` and column `cursorAt i + x` (the cursor being the
sum of the widths of the preceding glyphs), and the blit never clears a
pixel that is already set. -/
theorem compose_bottom_aligned :
    (∀ (fetch : Char → Option CharData) (text : List Char) (gs : List CharData)
       (comp : CharData) (i : Nat) (g : CharData) (y x : Nat),
       (fetchCharsT fetch text).1 = some gs →
       fetch_font_bitmap fetch text = some comp →
       gs.get? i = some g → y < g.height → x < g.width →
       getPix g.bitmap y x = true →
       getPix comp.bitmap (maxHeight gs - g.height + y) (cursorAt gs i + x) = true) ∧
    (∀ (gs : List CharData) (maxH cursor : Nat) (grid : List (List Bool)) (r c : Nat),
       getPix grid r c = true → getPix (blitList gs maxH cursor grid) r c = true) := by
  constructor
  · intro fetch text gs comp i g y x hgs hcomp hget hy hx hpix
    have hne : gs.isEmpty = false := by
      cases gs with
      | nil => simp [List.get?] at hget
      | cons a r => rfl
    unfold fetch_font_bitmap at hcomp
    rw [hgs] at hcomp
    simp only [hne, Bool.false_eq_true, if_false] at hcomp
    have hb : comp.bitmap = blitList gs (maxHeight gs) 0
        (List.replicate (maxHeight gs) (List.replicate (totalWidth gs) false)) := by
      cases hcomp; rfl
    rw [hb]
    have hbounds := blit_indices_in_bounds gs i g hget y x hy hx
    have hs := blitList_sets gs i g 0
      (List.replicate (maxHeight gs) (List.replicate (totalWidth gs) false)) y x
      (replicate_shape (maxHeight gs) (totalWidth gs)) hget hy hx hpix
      hbounds.1 (by have h2 := hbounds.2; omega)
    have hz : (0 : Nat) + cursorAt gs i + x = cursorAt gs i + x := by omega
    rw [hz] at hs
    exact hs
  · intro gs maxH cursor grid r c h
    exact blitList_mono gs maxH cursor h

/-- Witness for `compose_bottom_aligned` on the concrete text `"a"` with a
1×1 glyph. -/
theorem compose_bottom_aligned_witness :
    getPix (CharData.bitmap { bitmap := [[true]], width := 1, height := 1, success := true })
      (maxHeight [{ bitmap := [[true]], width := 1, height := 1, success := true }] - 1 + 0)
      (cursorAt [{ bitmap := [[true]], width := 1, height := 1, success := true }] 0 + 0)
      = true :=
  compose_bottom_aligned.1 fetchOne ['a'] _
    { bitmap := [[true]], width := 1, height := 1, success := true } 0
    { bitmap := [[true]], width := 1, height := 1, success := true } 0 0
    (by decide) (by decide) (by decide) (by decide) (by decide) (by decide)

/-- A character's per-glyph fetch fails when it returns `None` or a dict
whose `success` entry is falsy (the `if char_data and char_data['success']`
test of line 154). -/
def charFetchFails (fetch : Char → Option CharData) (c : Char) : Bool :=
  match fetch c with
  | none => true
  | some d => !d.success

/-- The fail-fast collection aborts exactly when some character of the
text has a failing fetch. -/
theorem fetchCharsT_none_iff (fetch : Char → Option CharData) :
    ∀ (text : List Char),
      (fetchCharsT fetch text).1 = none ↔ ∃ c ∈ text, charFetchFails fetch c = true := by
  intro text
  induction text with
  | nil => simp [fetchCharsT]
  | cons c cs ih =>
    simp only [fetchCharsT]
    cases hf : fetch c with
    | none =>
      simp only []
      constructor
      · intro _; exact ⟨c, List.mem_cons_self c cs, by simp [charFetchFails, hf]⟩
      · intro _; trivial
    | some d =>
      by_cases hs : d.success
      · simp only [hs, if_true]
        have hcf : charFetchFails fetch c = false := by simp [charFetchFails, hf, hs]
        constructor
        · intro h
          cases hr : (fetchCharsT fetch cs).1 with
          | none =>
            rcases ih.mp hr with ⟨c2, hmem, hfail⟩
            exact ⟨c2, List.mem_cons_of_mem c hmem, hfail⟩
          | some gs => rw [hr] at h; simp at h
        · intro ⟨c2, hmem, hfail⟩
          rcases List.mem_cons.mp hmem with rfl | hmem2
          · rw [hcf] at hfail; cases hfail
          · have : (fetchCharsT fetch cs).1 = none := ih.mpr ⟨c2, hmem2, hfail⟩
            rw [this]; rfl
      · simp only [hs, if_false]
        constructor
        · intro _
          exact ⟨c, List.mem_cons_self c cs, by simp [charFetchFails, hf, hs]⟩
        · intro _; trivial

/-- C3: `_fetch_font_bitmap` returns `None` exactly when the text is empty
or some character's glyph fetch fails; and on the first failing character
it aborts immediately — the fetch-call trace stops at that character and
no composite (not even a partial one) is produced. -/
theorem compose_none_iff_fail_fast :
    (∀ (fetch : Char → Option CharData) (text : List Char),
       fetch_font_bitmap fetch text = none ↔
         (text = [] ∨ ∃ c ∈ text, charFetchFails fetch c = true)) ∧
    (∀ (fetch : Char → Option CharData) (pre : List Char) (c : Char) (post : List Char),
       (∀ c2 ∈ pre, charFetchFails fetch c2 = false) → charFetchFails fetch c = true →
       fetchCharsT fetch (pre ++ c :: post) = (none, pre ++ [c]) ∧
       fetch_font_bitmap fetch (pre ++ c :: post) = none) := by
  constructor
  · intro fetch text
    unfold fetch_font_bitmap
    cases hr : (fetchCharsT fetch text).1 with
    | none =>
      simp only []
      constructor
      · intro _
        exact Or.inr ((fetchCharsT_none_iff fetch text).mp hr)
      · intro _; trivial
    | some gs =>
      have hlen := fetchCharsT_length hr
      by_cases hemp : gs.isEmpty
      · simp only [hemp, if_true]
        constructor
        · intro _
          left
          cases gs with
          | nil => cases text with
            | nil => rfl
            | cons a l => simp at hlen
          | cons a l => simp [List.isEmpty] at hemp
        · intro _; trivial
      · simp only [hemp, if_false]
        constructor
        · intro h; simp at h
        · intro h
          rcases h with rfl | hex
          · cases gs with
            | nil => simp [List.isEmpty] at hemp
            | cons a l => simp at hlen
          · have : (fetchCharsT fetch text).1 = none :=
              (fetchCharsT_none_iff fetch text).mpr hex
            rw [hr] at this; cases this
  · intro fetch pre c post hpre hc
    have htr : fetchCharsT fetch (pre ++ c :: post) = (none, pre ++ [c]) := by
      induction pre with
      | nil =>
        simp only [List.nil_append, fetchCharsT]
        unfold charFetchFails at hc
        cases hf : fetch c with
        | none => rfl
        | some d =>
          rw [hf] at hc
          simp at hc
          simp [hc]
      | cons p ps ih =>
        have hp : charFetchFails fetch p = false := hpre p (List.mem_cons_self p ps)
        unfold charFetchFails at hp
        cases hf : fetch p with
        | none => rw [hf] at hp; cases hp
        | some d =>
          rw [hf] at hp
          simp at hp
          have hrec := ih (fun c2 hm => hpre c2 (List.mem_cons_of_mem p hm))
          simp only [List.cons_append]
          simp only [fetchCharsT, hf, hp, if_true]
          rw [hrec]
          simp
    refine ⟨htr, ?_⟩
    unfold fetch_font_bitmap
    rw [htr]

/-- Witness oracle for the fail-fast property: fetching works except for
the character `b`. -/
def fetchFailB : Char → Option CharData :=
  fun c => if c = 'b' then none else some { bitmap := [[true]], width := 1, height := 1, success := true }

/-- Witness for `compose_none_iff_fail_fast`: in `"abc"` the failure on
`'b'` stops the fetch trace at `['a', 'b']` and yields no composite. -/
theorem compose_none_iff_fail_fast_witness :
    fetchCharsT fetchFailB (['a'] ++ 'b' :: ['c']) = (none, ['a'] ++ ['b']) ∧
    fetch_font_bitmap fetchFailB (['a'] ++ 'b' :: ['c']) = none :=
  compose_none_iff_fail_fast.2 fetchFailB ['a'] 'b' ['c'] (by decide) (by decide)

/-- The JSON object of a font-service reply as the MicroPython client sees
it: a dict whose entries may each be absent (`Option`), read with
`data.get('success', False)` and plain indexing. -/
structure JsonData where
  success : Option Bool
  bitmap : Option (List (List Bool))
  width : Option Nat
  height : Option Nat
deriving DecidableEq

/-- An HTTP reply: the status code and the JSON body; `body = none` embeds
a `response.json()` that raises (malformed JSON). -/
structure HttpResp where
  status : Nat
  body : Option JsonData
deriving DecidableEq

/-- `_fetch_single_char_bitmap` (lines 110-133): look the `(char,
font_size)` key up in the cache and return the stored dict on a hit;
otherwise issue one request (the oracle `net`; `none` embeds a raised
timeout/transport exception), require status 200, a parsing JSON body and
a truthy `success` entry, cache the dict and return it; every other
outcome returns `None` and leaves the cache unchanged. -/
def fetch_single_char_bitmap (cache : List ((Char × Nat) × JsonData))
    (net : Char × Nat → Option HttpResp) (key : Char × Nat) :
    Option JsonData × List ((Char × Nat) × JsonData) :=
  match List.lookup key cache with
  | some d => (some d, cache)
  | none =>
    match net key with
    | none => (none, cache)
    | some resp =>
      if resp.status = 200 then
        match resp.body with
        | none => (none, cache)
        | some d =>
          if d.success.getD false then (some d, (key, d) :: cache)
          else (none, cache)
      else (none, cache)

/-- Equation: a cache hit returns the stored dict and leaves the cache
unchanged. -/
theorem fscb_hit {cache : List ((Char × Nat) × JsonData)} {key : Char × Nat} {d : JsonData}
    (net : Char × Nat → Option HttpResp) (hl : List.lookup key cache = some d) :
    fetch_single_char_bitmap cache net key = (some d, cache) := by
  unfold fetch_single_char_bitmap
  rw [hl]

/-- Equation: a raising request on a miss yields `None`, cache unchanged. -/
theorem fscb_noresp {cache : List ((Char × Nat) × JsonData)} {key : Char × Nat}
    {net : Char × Nat → Option HttpResp} (hl : List.lookup key cache = none)
    (hn : net key = none) :
    fetch_single_char_bitmap cache net key = (none, cache) := by
  unfold fetch_single_char_bitmap
  rw [hl, hn]

/-- Equation: a non-200 status on a miss yields `None`, cache unchanged. -/
theorem fscb_badstatus {cache : List ((Char × Nat) × JsonData)} {key : Char × Nat}
    {net : Char × Nat → Option HttpResp} {resp : HttpResp}
    (hl : List.lookup key cache = none) (hn : net key = some resp)
    (hst : resp.status ≠ 200) :
    fetch_single_char_bitmap cache net key = (none, cache) := by
  unfold fetch_single_char_bitmap
  rw [hl, hn]
  simp [hst]

/-- Equation: a malformed JSON body on a miss yields `None`, cache
unchanged. -/
theorem fscb_badjson {cache : List ((Char × Nat) × JsonData)} {key : Char × Nat}
    {net : Char × Nat → Option HttpResp} {resp : HttpResp}
    (hl : List.lookup key cache = none) (hn : net key = some resp)
    (hst : resp.status = 200) (hb : resp.body = none) :
    fetch_single_char_bitmap cache net key = (none, cache) := by
  unfold fetch_single_char_bitmap
  rw [hl, hn]
  simp [hst, hb]

/-- Equation: a falsy `success` entry on a miss yields `None`, cache
unchanged. -/
theorem fscb_notsuccess {cache : List ((Char × Nat) × JsonData)} {key : Char × Nat}
    {net : Char × Nat → Option HttpResp} {resp : HttpResp} {d : JsonData}
    (hl : List.lookup key cache = none) (hn : net key = some resp)
    (hst : resp.status = 200) (hb : resp.body = some d)
    (hsu : d.success.getD false = false) :
    fetch_single_char_bitmap cache net key = (none, cache) := by
  unfold fetch_single_char_bitmap
  rw [hl, hn]
  simp [hst, hb, hsu]

/-- Equation: a 200 reply with truthy `success` on a miss is cached and
returned. -/
theorem fscb_success {cache : List ((Char × Nat) × JsonData)} {key : Char × Nat}
    {net : Char × Nat → Option HttpResp} {resp : HttpResp} {d : JsonData}
    (hl : List.lookup key cache = none) (hn : net key = some resp)
    (hst : resp.status = 200) (hb : resp.body = some d)
    (hsu : d.success.getD false = true) :
    fetch_single_char_bitmap cache net key = (some d, (key, d) :: cache) := by
  unfold fetch_single_char_bitmap
  rw [hl, hn]
  simp [hst, hb, hsu]

/-- C4: the cache layer is idempotent after one success — a second call
with the same key returns the bit-identical dict with the cache unchanged
and independently of the network (no request is issued); a successful miss
inserts the dict into the cache before returning; a failed fetch caches
nothing, so a later call with the same key against a recovered network
succeeds. -/
theorem cache_getOrFetch_idempotent :
    (∀ (cache : List ((Char × Nat) × JsonData)) (net : Char × Nat → Option HttpResp)
       (key : Char × Nat) (d : JsonData) (cache2 : List ((Char × Nat) × JsonData)),
       fetch_single_char_bitmap cache net key = (some d, cache2) →
       (∀ net2, fetch_single_char_bitmap cache2 net2 key = (some d, cache2)) ∧
       (List.lookup key cache = none → List.lookup key cache2 = some d)) ∧
    (∀ (cache : List ((Char × Nat) × JsonData)) (net : Char × Nat → Option HttpResp)
       (key : Char × Nat),
       (fetch_single_char_bitmap cache net key).1 = none →
       (fetch_single_char_bitmap cache net key).2 = cache) ∧
    (∀ (cache : List ((Char × Nat) × JsonData)) (net2 : Char × Nat → Option HttpResp)
       (key : Char × Nat) (resp : HttpResp) (d : JsonData),
       List.lookup key cache = none → net2 key = some resp → resp.status = 200 →
       resp.body = some d → d.success.getD false = true →
       (fetch_single_char_bitmap cache net2 key).1 = some d) := by
  refine ⟨?_, ?_, ?_⟩
  · intro cache net key d cache2 h
    cases hl : List.lookup key cache with
    | some v =>
      rw [fscb_hit net hl] at h
      simp only [Prod.mk.injEq, Option.some.injEq] at h
      obtain ⟨rfl, rfl⟩ := h
      refine ⟨fun net2 => fscb_hit net2 hl, fun hn => ?_⟩
      simp [hl] at hn
    | none =>
      cases hn : net key with
      | none => rw [fscb_noresp hl hn] at h; simp at h
      | some resp =>
        by_cases hst : resp.status = 200
        · cases hb : resp.body with
          | none => rw [fscb_badjson hl hn hst hb] at h; simp at h
          | some jd =>
            by_cases hsu : jd.success.getD false
            · rw [fscb_success hl hn hst hb hsu] at h
              simp only [Prod.mk.injEq, Option.some.injEq] at h
              obtain ⟨rfl, rfl⟩ := h
              have hlk : List.lookup key ((key, jd) :: cache) = some jd := by
                simp [List.lookup]
              exact ⟨fun net2 => fscb_hit net2 hlk, fun _ => hlk⟩
            · rw [fscb_notsuccess hl hn hst hb (by simpa using hsu)] at h; simp at h
        · rw [fscb_badstatus hl hn hst] at h; simp at h
  · intro cache net key h
    cases hl : List.lookup key cache with
    | some v => rw [fscb_hit net hl] at h; simp at h
    | none =>
      cases hn : net key with
      | none => rw [fscb_noresp hl hn]
      | some resp =>
        by_cases hst : resp.status = 200
        · cases hb : resp.body with
          | none => rw [fscb_badjson hl hn hst hb]
          | some jd =>
            by_cases hsu : jd.success.getD false
            · rw [fscb_success hl hn hst hb hsu] at h; simp at h
            · rw [fscb_notsuccess hl hn hst hb (by simpa using hsu)]
        · rw [fscb_badstatus hl hn hst]
  · intro cache net2 key resp d hl hn hst hb hsu
    rw [fscb_success hl hn hst hb hsu]

/-- A well-formed, consistent service reply used by the cache witnesses. -/
def jdGood : JsonData :=
  { success := some true, bitmap := some [[true]], width := some 1, height := some 1 }

/-- A network oracle that always answers 200 with `jdGood`. -/
def netGood : Char × Nat → Option HttpResp :=
  fun _ => some { status := 200, body := some jdGood }

/-- Witness for `cache_getOrFetch_idempotent`: after the first successful
fetch of `('你', 24)` the second call hits the cache. -/
theorem cache_getOrFetch_idempotent_witness :
    fetch_single_char_bitmap [(('你', 24), jdGood)] netGood ('你', 24)
      = (some jdGood, [(('你', 24), jdGood)]) :=
  (cache_getOrFetch_idempotent.1 [] netGood ('你', 24) jdGood [(('你', 24), jdGood)]
    (by decide)).1 netGood

/-- Modelled from the spec (§4.1): a reply dict is a valid glyph when
`success` is true and `bitmap`, `width`, `height` are all present and
consistent — `height` equals the number of bitmap rows and every row's
length equals `width`. -/
def spec_valid_glyph (d : JsonData) : Bool :=
  (d.success == some true) &&
  (match d.bitmap, d.width, d.height with
   | some bm, some w, some h =>
     (bm.length == h) && bm.all (fun row => row.length == w)
   | _, _, _ => false)

/-- An inconsistent reply: one 1×1 bitmap row, but `width = 3` and
`height = 7`. -/
def jdBad : JsonData :=
  { success := some true, bitmap := some [[true]], width := some 3, height := some 7 }

/-- A network oracle answering 200/`success=true` with the inconsistent
`jdBad`. -/
def netBad : Char × Nat → Option HttpResp :=
  fun _ => some { status := 200, body := some jdBad }

/-- Counterexample to C6: `_fetch_single_char_bitmap` returns the glyph
dict of a 200 / `success=true` reply even though its `bitmap`, `width`
and `height` fields are inconsistent — no presence or consistency check
is performed. -/
theorem fetch_no_validation_counterexample :
    (fetch_single_char_bitmap [] netBad ('你', 24)).1 = some jdBad ∧
    spec_valid_glyph jdBad = false := by
  constructor
  · rfl
  · rfl

/-- C6 as amended: on a cache miss, `_fetch_single_char_bitmap` returns a
glyph dict exactly when the request raised no exception, the status is
200, the body parses as JSON and its `success` entry is truthy; the
presence and consistency of `bitmap`, `width`, `height` are not
validated. -/
theorem fetch_success_iff (cache : List ((Char × Nat) × JsonData))
    (net : Char × Nat → Option HttpResp) (key : Char × Nat) (d : JsonData)
    (hl : List.lookup key cache = none) :
    (fetch_single_char_bitmap cache net key).1 = some d ↔
      ∃ resp, net key = some resp ∧ resp.status = 200 ∧ resp.body = some d ∧
        d.success.getD false = true := by
  constructor
  · intro h
    cases hn : net key with
    | none => rw [fscb_noresp hl hn] at h; simp at h
    | some resp =>
      by_cases hst : resp.status = 200
      · cases hb : resp.body with
        | none => rw [fscb_badjson hl hn hst hb] at h; simp at h
        | some jd =>
          by_cases hsu : jd.success.getD false
          · rw [fscb_success hl hn hst hb hsu] at h
            simp only [Option.some.injEq] at h
            subst h
            exact ⟨resp, rfl, hst, hb, hsu⟩
          · rw [fscb_notsuccess hl hn hst hb (by simpa using hsu)] at h; simp at h
      · rw [fscb_badstatus hl hn hst] at h; simp at h
  · intro ⟨resp, hn, hst, hb, hsu⟩
    rw [fscb_success hl hn hst hb hsu]

/-- Witness for `fetch_success_iff` with an empty cache and a well-formed
200 reply. -/
theorem fetch_success_iff_witness :
    (fetch_single_char_bitmap [] netGood ('你', 24)).1 = some jdGood :=
  (fetch_success_iff [] netGood ('你', 24) jdGood (by decide)).mpr
    ⟨{ status := 200, body := some jdGood }, rfl, rfl, rfl, rfl⟩

/-- The safe-character string of `_urlencode_chinese` (line 98), in the
source's order. -/
def safe_chars : List Char :=
  "abcdefghijklmnopqrstuvwxyzABCDEFGHIJKLMNOPQRSTUVWXYZ0123456789-_.~".toList

/-- The spec's unreserved ASCII set, in the spec's order
(`A-Z a-z 0-9 - _ . ~`). -/
def spec_unreserved : List Char :=
  "ABCDEFGHIJKLMNOPQRSTUVWXYZabcdefghijklmnopqrstuvwxyz0123456789-_.~".toList

/-- UTF-8 encoding of a Unicode scalar value, as `char.encode('utf-8')`
produces it (line 104); bytes are `Nat < 256`. -/
def utf8Bytes (n : Nat) : List Nat :=
  if n < 0x80 then [n]
  else if n < 0x800 then [0xC0 + n / 64, 0x80 + n % 64]
  else if n < 0x10000 then [0xE0 + n / 4096, 0x80 + n / 64 % 64, 0x80 + n % 64]
  else [0xF0 + n / 262144, 0x80 + n / 4096 % 64, 0x80 + n / 64 % 64, 0x80 + n % 64]

/-- A single uppercase hex digit of the `X` format. -/
def toHexDigit (d : Nat) : Char :=
  Char.ofNat (if d < 10 then 48 + d else 55 + d)

/-- `f"{byte:02X}"` for a byte `< 256`: exactly two uppercase hex
digits. -/
def toHex2 (b : Nat) : List Char :=
  [toHexDigit (b / 16), toHexDigit (b % 16)]

/-- `_urlencode_chinese` (lines 95-107): safe characters pass through
unchanged, every other character contributes `%XX` for each of its UTF-8
bytes; the result is accumulated by string concatenation. -/
def urlencode_chinese (text : List Char) : List Char :=
  text.foldl
    (fun acc c =>
      acc ++ (if c ∈ safe_chars then [c]
              else (utf8Bytes c.toNat).flatMap (fun b => '%' :: toHex2 b)))
    []

/-- Modelled from the spec: the value of one hex digit in standard
percent-decoding. -/
def hexVal (c : Char) : Option Nat :=
  if 48 ≤ c.toNat ∧ c.toNat ≤ 57 then some (c.toNat - 48)
  else if 65 ≤ c.toNat ∧ c.toNat ≤ 70 then some (c.toNat - 55)
  else if 97 ≤ c.toNat ∧ c.toNat ≤ 102 then some (c.toNat - 87)
  else none

/-- Modelled from the spec: standard percent-decoding to a byte sequence —
`%XX` stands for the byte `0xXX`, any other character stands for its own
(ASCII) byte. -/
def percentDecode : List Char → Option (List Nat)
  | [] => some []
  | c :: rest =>
    if c = '%' then
      match rest with
      | h1 :: h2 :: rest2 =>
        match hexVal h1, hexVal h2 with
        | some a, some b => (percentDecode rest2).map (fun l => (16 * a + b) :: l)
        | _, _ => none
      | _ => none
    else (percentDecode rest).map (fun l => c.toNat :: l)

/-- The per-character contribution of the encoder, phrased with the spec's
unreserved set: unreserved characters pass unchanged, all others become
the `%XX` spelling of their UTF-8 bytes. -/
def encodeChar (c : Char) : List Char :=
  if c ∈ spec_unreserved then [c]
  else (utf8Bytes c.toNat).flatMap (fun b => '%' :: toHex2 b)

/-- The source's safe string and the spec's unreserved set contain the
same characters. -/
theorem safe_chars_perm : List.Perm safe_chars spec_unreserved := by decide

/-- Membership agrees between the source's safe list and the spec's
unreserved set. -/
theorem mem_safe_iff (c : Char) : c ∈ safe_chars ↔ c ∈ spec_unreserved :=
  safe_chars_perm.mem_iff

/-- Every unreserved character is ASCII and is not the escape `%`. -/
theorem spec_unreserved_props : ∀ c ∈ spec_unreserved, c.toNat < 128 ∧ c ≠ '%' := by decide

/-- Unicode scalar values are below `0x110000`. -/
theorem char_toNat_lt (c : Char) : c.toNat < 1114112 := by
  rcases c.valid with h | ⟨h1, h2⟩ <;> simp [Char.toNat] <;> omega

/-- Every UTF-8 byte of a Unicode scalar value fits in one byte. -/
theorem utf8Bytes_lt_256 {n : Nat} (h : n < 1114112) : ∀ b ∈ utf8Bytes n, b < 256 := by
  intro b hb
  unfold utf8Bytes at hb
  by_cases h1 : n < 0x80
  · simp [h1] at hb; omega
  · by_cases h2 : n < 0x800
    · simp [h1, h2] at hb
      rcases hb with rfl | rfl <;> omega
    · by_cases h3 : n < 0x10000
      · simp [h1, h2, h3] at hb
        rcases hb with rfl | rfl | rfl <;> omega
      · simp [h1, h2, h3] at hb
        rcases hb with rfl | rfl | rfl | rfl <;> omega

/-- Decoding inverts the uppercase hex formatting digit by digit. -/
theorem hexVal_toHexDigit : ∀ d < 16, hexVal (toHexDigit d) = some d := by decide

/-- Folding with append flattens to one `flatMap`. -/
theorem foldl_append_flat {α β : Type} (f : α → List β) :
    ∀ (l : List α) (acc : List β),
      l.foldl (fun a c => a ++ f c) acc = acc ++ l.flatMap f := by
  intro l
  induction l with
  | nil => intro acc; simp
  | cons a l ih => intro acc; simp [ih, List.append_assoc]

/-- The encoder is the concatenation of the per-character spec chunks. -/
theorem urlencode_eq_flatMap (text : List Char) :
    urlencode_chinese text = text.flatMap encodeChar := by
  unfold urlencode_chinese
  rw [foldl_append_flat]
  simp only [List.nil_append]
  have hfun : (fun c => if c ∈ safe_chars then [c]
      else (utf8Bytes c.toNat).flatMap (fun b => '%' :: toHex2 b)) = encodeChar := by
    funext c
    unfold encodeChar
    exact if_congr (mem_safe_iff c) rfl rfl
  rw [hfun]

/-- Decoding steps over a plain (non-`%`) character. -/
theorem percentDecode_cons_safe {c : Char} (hc : ¬c = '%') (rest : List Char) :
    percentDecode (c :: rest) = (percentDecode rest).map (fun l => c.toNat :: l) := by
  conv_lhs => unfold percentDecode
  simp [hc]

/-- Decoding consumes one `%XX` escape as the byte it spells. -/
theorem percentDecode_hex {b : Nat} (hb : b < 256) (rest : List Char) :
    percentDecode ('%' :: (toHex2 b ++ rest)) = (percentDecode rest).map (fun l => b :: l) := by
  have h1 : hexVal (toHexDigit (b / 16)) = some (b / 16) := hexVal_toHexDigit _ (by omega)
  have h2 : hexVal (toHexDigit (b % 16)) = some (b % 16) := hexVal_toHexDigit _ (by omega)
  have hstep : percentDecode ('%' :: (toHex2 b ++ rest)) =
      match hexVal (toHexDigit (b / 16)), hexVal (toHexDigit (b % 16)) with
      | some a, some b2 => (percentDecode rest).map (fun l => (16 * a + b2) :: l)
      | _, _ => none := rfl
  rw [hstep, h1, h2]
  have hbb : 16 * (b / 16) + b % 16 = b := by omega
  simp [hbb]

/-- Decoding consumes a run of `%XX` escapes as exactly those bytes. -/
theorem percentDecode_bytes :
    ∀ (bytes : List Nat), (∀ b ∈ bytes, b < 256) → ∀ (rest : List Char),
      percentDecode (bytes.flatMap (fun b => '%' :: toHex2 b) ++ rest)
        = (percentDecode rest).map (fun l => bytes ++ l) := by
  intro bytes
  induction bytes with
  | nil =>
    intro _ rest
    simp only [List.flatMap_nil, List.nil_append]
    cases h : percentDecode rest <;> simp
  | cons b bs ih =>
    intro hlt rest
    have hb : b < 256 := hlt b (List.mem_cons_self b bs)
    simp only [List.flatMap_cons, List.append_assoc, List.cons_append]
    rw [percentDecode_hex hb]
    rw [ih (fun x hx => hlt x (List.mem_cons_of_mem b hx))]
    cases h : percentDecode rest <;> simp

/-- Decoding the concatenation of spec chunks recovers the UTF-8 bytes. -/
theorem percentDecode_encode (text : List Char) :
    percentDecode (text.flatMap encodeChar)
      = some (text.flatMap (fun c => utf8Bytes c.toNat)) := by
  induction text with
  | nil => rfl
  | cons c cs ih =>
    simp only [List.flatMap_cons]
    by_cases hc : c ∈ spec_unreserved
    · have hprops := spec_unreserved_props c hc
      have henc : encodeChar c = [c] := by unfold encodeChar; simp [hc]
      rw [henc, List.singleton_append, percentDecode_cons_safe hprops.2, ih]
      have hu : utf8Bytes c.toNat = [c.toNat] := by
        unfold utf8Bytes
        simp [show c.toNat < 128 from hprops.1]
      rw [hu]
      simp
    · have henc : encodeChar c = (utf8Bytes c.toNat).flatMap (fun b => '%' :: toHex2 b) := by
        unfold encodeChar; simp [hc]
      rw [henc, percentDecode_bytes _ (utf8Bytes_lt_256 (char_toNat_lt c)) _, ih]
      simp

/-- C5: `_urlencode_chinese` passes unreserved ASCII characters through
unchanged and encodes every other character as the uppercase `%XX`
spelling of its UTF-8 bytes, and standard percent-decoding of the result
reproduces the original string's UTF-8 byte sequence exactly. -/
theorem urlencode_unreserved_roundtrip (text : List Char) :
    urlencode_chinese text = text.flatMap encodeChar ∧
    percentDecode (urlencode_chinese text)
      = some (text.flatMap (fun c => utf8Bytes c.toNat)) := by
  have ha := urlencode_eq_flatMap text
  exact ⟨ha, by rw [ha]; exact percentDecode_encode text⟩

/-- The scroll offsets of the demo1 variant (`oled_display_size.py` line
206): Python `range(0, total_scroll_width + scroll_step, scroll_step)`
with `scroll_step = 2` and `total_scroll_width = width + bitmap_width`;
`range(0, stop, 2)` has `⌈stop/2⌉` elements `0, 2, 4, …`. -/
def scroll_offsets_size (W w : Nat) : List Nat :=
  (List.range ((W + w + 2 + 1) / 2)).map (fun i => 2 * i)

/-- The scroll offsets of the `oled_display.py` variant (line 140):
`range(total_scroll_width)`, step 1. -/
def scroll_offsets_orig (W w : Nat) : List Nat :=
  List.range (W + w)

/-- One scroll frame (lines 207-214 of `oled_display_size.py`, lines
141-148 of `oled_display.py`): the screen pixels drawn for the composite
at a given offset — every set pixel `(x, y)` maps to
`(W - offset + x, (H - height) // 2 + y)` (Python floor division for the
vertical centering) and is drawn only when `0 ≤ W - offset + x < W`. -/
def frame_pixels (bm : CharData) (W H : Nat) (offset : Nat) : List (Int × Int) :=
  (List.range bm.height).flatMap (fun y =>
    (List.range bm.width).flatMap (fun x =>
      if getPix bm.bitmap y x then
        if 0 ≤ (W : Int) - offset + x ∧ (W : Int) - offset + x < W then
          [((W : Int) - offset + x, Int.fdiv ((H : Int) - bm.height) 2 + y)]
        else []
      else []))

/-- C8: at every frame offset, a pixel is drawn exactly when it is the
image of a set composite pixel `(x, y)` under
`(W - offset + x, (H - height) // 2 + y)` whose horizontal screen
coordinate lies in `[0, W)`; out-of-range pixels are skipped. -/
theorem scroll_frame_pixels_iff (bm : CharData) (W H : Nat) (offset : Nat) (p : Int × Int) :
    p ∈ frame_pixels bm W H offset ↔
      ∃ y x, y < bm.height ∧ x < bm.width ∧ getPix bm.bitmap y x = true ∧
        p = ((W : Int) - offset + x, Int.fdiv ((H : Int) - bm.height) 2 + y) ∧
        0 ≤ (W : Int) - offset + x ∧ (W : Int) - offset + x < W := by
  unfold frame_pixels
  simp only [List.mem_flatMap, List.mem_range]
  constructor
  · rintro ⟨y, hy, x, hx, hmem⟩
    refine ⟨y, x, hy, hx, ?_⟩
    by_cases hpix : getPix bm.bitmap y x
    · rw [if_pos hpix] at hmem
      by_cases hbound : 0 ≤ (W : Int) - offset + x ∧ (W : Int) - offset + x < W
      · rw [if_pos hbound] at hmem
        simp at hmem
        exact ⟨hpix, hmem, hbound.1, hbound.2⟩
      · rw [if_neg hbound] at hmem
        simp at hmem
    · rw [if_neg hpix] at hmem
      simp at hmem
  · rintro ⟨y, x, hy, hx, hpix, hp, h0, hW⟩
    exact ⟨y, hy, x, hx, by simp [hpix, h0, hW, hp]⟩

/-- A 50×1 all-set composite row, the spec's scroll-bounds example width. -/
def bmRow : CharData :=
  { bitmap := [List.replicate 50 true], width := 50, height := 1, success := true }

/-- Counterexample to C7: the step-1 variant's `range(total_scroll_width)`
stops at offset 177 for a width-50 composite on a 128-wide display — the
claimed final offset 178 is never reached, and at the last rendered frame
the composite's final column is still drawn (the bitmap has not fully
exited). -/
theorem scroll_not_inclusive_counterexample :
    178 ∉ scroll_offsets_orig 128 50 ∧
    (scroll_offsets_orig 128 50).getLast? = some 177 ∧
    frame_pixels bmRow 128 64 177 ≠ [] := by
  refine ⟨by decide, by decide, by decide⟩

/-- C7 as amended: the demo1 step-2 variant iterates the offset past
`totalScrollWidth` inclusive (its last frame has the bitmap fully exited
on the left), while the `oled_display.py` step-1 variant stops at
`totalScrollWidth - 1`, one frame short — at its last offset the bitmap's
final column is drawn at screen column 0, inside the display. -/
theorem scroll_offsets_amended (W w : Nat) (hW : 0 < W) (hw : 0 < w) :
    (∃ o ∈ scroll_offsets_size W w, W + w ≤ o ∧ ∀ x < w, (W : Int) - o + x < 0) ∧
    (∀ o ∈ scroll_offsets_orig W w, o < W + w) ∧
    (W + w - 1 ∈ scroll_offsets_orig W w ∧
      (W : Int) - ((W + w - 1 : Nat) : Int) + ((w : Int) - 1) = 0 ∧ (0 : Int) < (W : Int)) := by
  refine ⟨?_, ?_, ?_, ?_, ?_⟩
  · refine ⟨W + w + (W + w) % 2, ?_, by omega, ?_⟩
    · unfold scroll_offsets_size
      refine List.mem_map.mpr ⟨(W + w + (W + w) % 2) / 2, List.mem_range.mpr (by omega), by omega⟩
    · intro x hx
      have h1 : W + w ≤ W + w + (W + w) % 2 := by omega
      push_cast
      omega
  · intro o ho
    exact List.mem_range.mp ho
  · exact List.mem_range.mpr (by omega)
  · push_cast [Nat.cast_sub (by omega : 1 ≤ W + w)]
    ring
  · exact_mod_cast hW

/-- Witness for `scroll_offsets_amended` at the spec's example: display
width 128, composite width 50. -/
theorem scroll_offsets_amended_witness :
    (∃ o ∈ scroll_offsets_size 128 50, 128 + 50 ≤ o ∧
      ∀ x : Nat, x < 50 → (128 : Int) - o + (x : Int) < 0) ∧
    (∀ o ∈ scroll_offsets_orig 128 50, o < 128 + 50) ∧
    (128 + 50 - 1 ∈ scroll_offsets_orig 128 50 ∧
      (128 : Int) - ((128 + 50 - 1 : Nat) : Int) + ((50 : Int) - 1) = 0 ∧
      (0 : Int) < (128 : Int)) := by
  have h := scroll_offsets_amended 128 50 (by decide) (by decide)
  exact_mod_cast h

/-- The ASCII whitespace characters of Python's `str.strip()`, which
decides the service's `if not text.strip()` branch. -/
def is_py_space (c : Char) : Bool :=
  c = ' ' || c = '\t' || c = '\n' || c = '\r' || c = '\x0b' || c = '\x0c'

/-- The success payload of the service's `text_to_bitmap`. -/
structure ServerBitmap where
  bitmap : List (List Bool)
  width : Int
  height : Int
  success : Bool
deriving DecidableEq

/-- `text_to_bitmap` (`font_server_size.py` lines 10-52) with the PIL
effects passed explicitly: `(l, t, r, b)` is the measured
`draw.textbbox((0, 0), text, font)` and `ink x y` the pixel read back
from the rendered image.  Width/height start as the bbox extents; when
`text.strip()` is empty, a zero width becomes
`(font_size // 3) * len(text)` — or `1` for the empty text — and a zero
height becomes `font_size`; a negative image size raises inside the
`try`, producing the `success: false` dict (`none`). -/
def text_to_bitmap (ink : Nat → Nat → Bool) (text : List Char) (fontSize : Nat)
    (l t r b : Int) : Option ServerBitmap :=
  let width0 := r - l
  let height0 := b - t
  let stripEmpty := text.all is_py_space
  let width1 :=
    if stripEmpty then
      if width0 = 0 ∧ text.length > 0 then ((fontSize / 3 : Nat) : Int) * text.length
      else if width0 = 0 ∧ text.length = 0 then 1
      else width0
    else width0
  let height1 :=
    if stripEmpty then (if height0 = 0 then (fontSize : Int) else height0)
    else height0
  if width1 < 0 ∨ height1 < 0 then none
  else some {
    bitmap := (List.range height1.toNat).map (fun y =>
                (List.range width1.toNat).map (fun x => ink x y)),
    width := width1, height := height1, success := true }

/-- An image with no set pixels (what PIL renders for whitespace). -/
def inkNone : Nat → Nat → Bool := fun _ _ => false

/-- Counterexample to C9: a single space at the valid font size 2 (whose
measured box is zero-sized) yields `estimated_space_width = 2 // 3 = 0`,
so the returned width is 0, not positive. -/
theorem whitespace_width_counterexample :
    text_to_bitmap inkNone [' '] 2 0 0 0 0 =
      some { bitmap := [[], []], width := 0, height := 2, success := true } ∧
    ¬ (0 : Int) <
      (ServerBitmap.width { bitmap := [[], []], width := 0, height := 2, success := true }) := by
  exact ⟨by decide, by decide⟩

/-- C9 as amended: for an empty or whitespace-only text whose measured
text box is zero-sized, the service returns `height = font_size` always,
and `width > 0` provided `font_size ≥ 3` (the estimated per-space width
`font_size // 3` is then positive; the empty text gets width 1). -/
theorem whitespace_bitmap_amended (ink : Nat → Nat → Bool) (text : List Char) (fontSize : Nat)
    (hws : text.all is_py_space = true) (hfs : 3 ≤ fontSize) :
    ∃ rb, text_to_bitmap ink text fontSize 0 0 0 0 = some rb ∧
      0 < rb.width ∧ rb.height = (fontSize : Int) := by
  simp only [text_to_bitmap, hws, if_true]
  by_cases hlen : text.length = 0
  · simp only [hlen]
    norm_num
  · have hlen2 : 0 < text.length := Nat.pos_of_ne_zero hlen
    have hdiv : 1 ≤ fontSize / 3 := by omega
    have hpos : (0 : Int) < ((fontSize / 3 : Nat) : Int) * text.length := by
      have h1 : (1 : Int) ≤ ((fontSize / 3 : Nat) : Int) := by exact_mod_cast hdiv
      have h2 : (1 : Int) ≤ (text.length : Int) := by exact_mod_cast hlen2
      nlinarith
    simp only [hlen]
    norm_num [hlen2]
    push_cast at hpos
    refine ⟨_, ⟨?_, rfl⟩, hpos, rfl⟩
    omega

/-- Witness for `whitespace_bitmap_amended`: one space at font size 3. -/
theorem whitespace_bitmap_amended_witness :
    ∃ rb, text_to_bitmap inkNone [' '] 3 0 0 0 0 = some rb ∧
      0 < rb.width ∧ rb.height = ((3 : Nat) : Int) := by
  exact whitespace_bitmap_amended inkNone [' '] 3 (by decide) (by decide)
